import Mathlib

/-!
Verification development for the command-interpretation core of the rsh shell:
the tokenizer (src/token.rs), the recursive-descent parser (src/parser.rs) and
the execution engine (src/engine.rs).

Strings are modelled as lists of characters (Rust string slices are always cut
at character boundaries here, so byte indices and character positions agree);
str::trim_start is modelled with Char.isWhitespace, which agrees with Rust's
char::is_whitespace on ASCII input.
Loops are modelled with an explicit fuel argument; every wrapper supplies
fuel strictly larger than the length of the remaining input, which is enough
because each loop iteration consumes at least one character.  Running out of
fuel in the parser produces the error value ParseError.unexpectedEOL, which
the translated code itself never produces, so any theorem showing a different
outcome also certifies that the fuel sufficed.
-/

namespace Rsh

/-- Tokenizer::is_special_token: the single-character operator characters. -/
def isSpecialToken (c : Char) : Bool :=
  c = '|' || c = '>' || c = '<' || c = '&' || c = '"' || c = '\'' || c = ' '

/-- enum Token in src/token.rs; a Text token keeps the span of input it covers. -/
inductive Token where
  | text (s : List Char)
  | pipe
  | redirectOutput
  | redirectInput
  | background
  | singleQuote
  | doubleQuote
  | space
deriving DecidableEq, Repr

/-- Token::new in src/token.rs. -/
def Token.new (s : List Char) : Token :=
  if s = ['|'] then .pipe
  else if s = ['>'] then .redirectOutput
  else if s = ['<'] then .redirectInput
  else if s = ['&'] then .background
  else if s = ['\''] then .singleQuote
  else if s = ['"'] then .doubleQuote
  else if s = [' '] then .space
  else .text s

/-- impl Display for Token: the literal text each token prints as. -/
def Token.display : Token → List Char
  | .text s => s
  | .pipe => ['|']
  | .redirectOutput => ['>']
  | .redirectInput => ['<']
  | .background => ['&']
  | .singleQuote => ['\'']
  | .doubleQuote => ['"']
  | .space => [' ']

/-- Tokenizer::parse_next_token with advance_stream = true: the next token and
the remaining input.  A special character becomes its own one-character token;
otherwise a maximal run of non-special characters becomes one Text token. -/
def nextToken (input : List Char) : Option (Token × List Char) :=
  match input with
  | [] => none
  | c :: _ =>
    if isSpecialToken c then
      some (Token.new [c], input.drop 1)
    else
      some (Token.new (input.takeWhile (fun x => !isSpecialToken x)),
            input.dropWhile (fun x => !isSpecialToken x))

/-- Tokenizer::peek_next (advance_stream = false): same token, input unchanged. -/
def peekNext (input : List Char) : Option Token :=
  (nextToken input).map Prod.fst

/-- A bare call of Tokenizer::next_token whose token is discarded. -/
def advanceToken (input : List Char) : List Char :=
  match nextToken input with
  | some (_, rest) => rest
  | none => input

/-- Tokenizer::skip_whitespace, i.e. str::trim_start. -/
def skipWhitespace (input : List Char) : List Char :=
  input.dropWhile Char.isWhitespace

/-- Calling Tokenizer::next_token repeatedly until it yields None. -/
def tokenizeFuel : Nat → List Char → List Token
  | 0, _ => []
  | fuel + 1, s =>
    match nextToken s with
    | none => []
    | some (t, rest) => t :: tokenizeFuel fuel rest

/-- The full token stream of an input line. -/
def tokenize (s : List Char) : List Token :=
  tokenizeFuel (s.length + 1) s

/-- Concatenation of the literal text of a list of tokens. -/
def tokensText (ts : List Token) : List Char :=
  ts.foldr (fun t acc => t.display ++ acc) []

/-- enum ParseError in src/parser.rs. -/
inductive ParseError where
  | unexpectedToken (s : List Char)
  | unexpectedEOF
  | unexpectedChar (c : Char)
  | unexpectedEOL
deriving DecidableEq, Repr

/-- enum RedirectMode in src/parser.rs. -/
inductive RedirectMode where
  | read
  | write
  | append
deriving DecidableEq, Repr

/-- enum RshNode in src/parser.rs: the AST. -/
inductive RshNode where
  | command (name : List Char) (args : List (List Char))
  | pipe (left : RshNode) (right : RshNode)
  | redirect (command : RshNode) (file : List Char) (mode : RedirectMode)
  | background (command : RshNode)
deriving DecidableEq, Repr

/-- RshNode::get_name. -/
def RshNode.getName : RshNode → Option (List Char)
  | .command n _ => some n
  | .redirect c _ _ => c.getName
  | .background c => c.getName
  | _ => none

/-- RshNode::get_args. -/
def RshNode.getArgs : RshNode → Option (List (List Char))
  | .command _ a => some a
  | .redirect c _ _ => c.getArgs
  | .background c => c.getArgs
  | _ => none

/-- Parser::next_is. -/
def nextIs (tok : Token) (st : List Char) : Bool :=
  match peekNext st with
  | some t => decide (t = tok)
  | none => false

/-- The while loop of Parser::parse_until_next: consume tokens, appending their
literal text, until the given token reappears or the tokens run out. -/
def collectUntilFuel : Nat → Token → List Char → List Char → List Char × List Char
  | 0, _, acc, st => (acc, st)
  | fuel + 1, tok, acc, st =>
    match nextToken st with
    | none => (acc, st)
    | some (t, st') =>
      if t = tok then (acc, st')
      else collectUntilFuel fuel tok (acc ++ t.display) st'

/-- Parser::parse_until_next: consume the opening quote, fail with
UnexpectedEOF when nothing follows it, otherwise collect literal text until
the matching token or the end of input (the latter still succeeds). -/
def parseUntilNext (tok : Token) (st : List Char) :
    Except ParseError (List Char × List Char) :=
  let st1 := advanceToken st
  if st1 = [] then .error .unexpectedEOF
  else .ok (collectUntilFuel (st1.length + 1) tok [] st1)

/-- Parser::parse_argument. -/
def parseArgument (st : List Char) : Except ParseError (List Char × List Char) :=
  let st1 := skipWhitespace st
  if nextIs Token.singleQuote st1 then parseUntilNext Token.singleQuote st1
  else if nextIs Token.doubleQuote st1 then parseUntilNext Token.doubleQuote st1
  else
    match nextToken st1 with
    | some (Token.text t, st2) => .ok (t, st2)
    | some (t, _) => .error (.unexpectedToken t.display)
    | none => .error .unexpectedEOF

/-- The argument-collecting loop of Parser::parse_simple_command. -/
def parseSimpleCommandLoopF :
    Nat → List (List Char) → List Char →
    Except ParseError (List (List Char) × List Char)
  | 0, _, _ => .error .unexpectedEOL
  | fuel + 1, args, st =>
    match peekNext st with
    | some (Token.text _) =>
      match parseArgument st with
      | .error e => .error e
      | .ok (a, st') => parseSimpleCommandLoopF fuel (args ++ [a]) st'
    | some Token.singleQuote =>
      match parseArgument st with
      | .error e => .error e
      | .ok (a, st') => parseSimpleCommandLoopF fuel (args ++ [a]) st'
    | some Token.doubleQuote =>
      match parseArgument st with
      | .error e => .error e
      | .ok (a, st') => parseSimpleCommandLoopF fuel (args ++ [a]) st'
    | some Token.space => parseSimpleCommandLoopF fuel args (skipWhitespace st)
    | _ => .ok (args, st)

/-- Parser::parse_simple_command. -/
def parseSimpleCommand (st : List Char) : Except ParseError (RshNode × List Char) :=
  match parseArgument st with
  | .error e => .error e
  | .ok (name, st1) =>
    match parseSimpleCommandLoopF (st1.length + 1) [] st1 with
    | .error e => .error e
    | .ok (args, st2) => .ok (.command name args, st2)

mutual

/-- Parser::parse_command: one simple command followed by the operator loop. -/
def parseCommandF : Nat → List Char → Except ParseError (RshNode × List Char)
  | 0, _ => .error .unexpectedEOL
  | fuel + 1, st =>
    match parseSimpleCommand st with
    | .error e => .error e
    | .ok (cmd, st1) => parseCommandLoopF fuel cmd st1

/-- The while loop of Parser::parse_command: a Pipe token triggers a recursive
parse of the remainder, a redirect operator consumes one argument, a
Background token wraps the accumulated node; anything else stops the loop. -/
def parseCommandLoopF : Nat → RshNode → List Char → Except ParseError (RshNode × List Char)
  | 0, _, _ => .error .unexpectedEOL
  | fuel + 1, cmd, st =>
    match peekNext st with
    | some Token.pipe =>
      match parseCommandF fuel (advanceToken st) with
      | .error e => .error e
      | .ok (right, st1) => parseCommandLoopF fuel (.pipe cmd right) st1
    | some Token.redirectOutput =>
      match parseArgument (advanceToken st) with
      | .error e => .error e
      | .ok (file, st1) => parseCommandLoopF fuel (.redirect cmd file .write) st1
    | some Token.redirectInput =>
      match parseArgument (advanceToken st) with
      | .error e => .error e
      | .ok (file, st1) => parseCommandLoopF fuel (.redirect cmd file .read) st1
    | some Token.background =>
      parseCommandLoopF fuel (.background cmd) (advanceToken st)
    | _ => .ok (cmd, st)

end

/-- Parser::parse: parse_command on a fresh tokenizer over the input; the
remaining input is dropped with the parser. -/
def parse (s : List Char) : Except ParseError RshNode :=
  match parseCommandF (s.length + 1) s with
  | .error e => .error e
  | .ok (node, _) => .ok node

/-!
Execution engine (src/engine.rs).  The OS is abstracted by an environment
telling which files exist and which program names can be spawned; spawning is
recorded in an ordered log of spawn records.  Panics of the Rust code (the
expect calls, Option::unwrap and the todo! arm of execute_node) are modelled
as Except errors carrying the state reached when the panic fires; such an
error aborts the whole traversal, exactly as an unwinding panic does.
File::create (Write mode) is modelled as always succeeding, matching
create-or-truncate on a writable directory; File::open and the
append-mode OpenOptions::open (which does not set create) fail with a
NotFound error when the named file does not exist.
-/

/-- The io::ErrorKind values the model distinguishes. -/
inductive IoErrorKind where
  | notFound
deriving DecidableEq, Repr

/-- How a spawned process's standard input is wired. -/
inductive StdinCfg where
  | piped
  | fromFile (file : List Char)
  | fromChildStdout (id : Nat)
deriving DecidableEq, Repr

/-- How a spawned process's standard output is wired. -/
inductive StdoutCfg where
  | piped
  | toFile (file : List Char) (mode : RedirectMode)
deriving DecidableEq, Repr

/-- StdoutCfg is a captured pipe endpoint. -/
def StdoutCfg.isPiped : StdoutCfg → Bool
  | .piped => true
  | _ => false

/-- One process-spawn request as built by process::Command in the engine. -/
structure SpawnRecord where
  id : Nat
  name : List Char
  args : List (List Char)
  stdin : StdinCfg
  stdout : StdoutCfg
  stderrPiped : Bool
deriving DecidableEq, Repr

/-- The spawn was pipe-connected: its stdin took a previous child's stdout. -/
def SpawnRecord.pipeConnected (r : SpawnRecord) : Bool :=
  match r.stdin with
  | .fromChildStdout _ => true
  | _ => false

/-- A process::Child handle; child.stdout is Some exactly when the command was
spawned with Stdio::piped for stdout, which is what stdoutPiped records. -/
structure Child where
  id : Nat
  stdoutPiped : Bool
deriving DecidableEq, Repr

/-- struct EngineCtx in src/engine.rs. -/
structure EngineCtx where
  commandCount : Nat
  shouldPipe : Bool
  children : List Child
deriving DecidableEq, Repr

/-- EngineCtx::new. -/
def EngineCtx.new : EngineCtx :=
  { commandCount := 0, shouldPipe := false, children := [] }

/-- EngineCtx::add_child. -/
def EngineCtx.addChild (ctx : EngineCtx) (c : Child) : EngineCtx :=
  { ctx with children := ctx.children ++ [c],
             commandCount := ctx.commandCount + 1 }

/-- EngineCtx::take_last_child (Vec::pop). -/
def EngineCtx.takeLastChild (ctx : EngineCtx) : Option Child × EngineCtx :=
  match ctx.children.getLast? with
  | none => (none, ctx)
  | some c => (some c, { ctx with children := ctx.children.dropLast })

/-- EngineCtx::set_pipe. -/
def EngineCtx.setPipe (ctx : EngineCtx) (b : Bool) : EngineCtx :=
  { ctx with shouldPipe := b }

/-- The panics the engine can raise. -/
inductive EngineErr where
  | openFailed (k : IoErrorKind)
  | spawnFailed
  | unwrapFailed
  | todoUnimplemented
deriving DecidableEq, Repr

/-- The abstract OS: which files exist, which program names spawn successfully. -/
structure Env where
  fileExists : List Char → Bool
  spawnOk : List Char → Bool

/-- The engine state threaded through a traversal: the context plus the
ordered log of every spawn performed and a counter of fresh child ids. -/
structure EngineSt where
  ctx : EngineCtx
  spawns : List SpawnRecord
  nextId : Nat
deriving DecidableEq, Repr

/-- The state at the start of Engine::execute. -/
def EngineSt.init : EngineSt :=
  { ctx := EngineCtx.new, spawns := [], nextId := 0 }

/-- EngineCtx::set_pipe lifted to the engine state. -/
def EngineSt.setPipe (st : EngineSt) (b : Bool) : EngineSt :=
  { st with ctx := st.ctx.setPipe b }

/-- command.spawn().expect(..) followed by ctx.add_child(child): on success the
spawn is logged and the new child handle appended to the context. -/
def spawnChild (env : Env) (name : List Char) (args : List (List Char))
    (stdin : StdinCfg) (stdout : StdoutCfg) (st : EngineSt) :
    Except (EngineErr × EngineSt) EngineSt :=
  if env.spawnOk name then
    .ok { ctx := st.ctx.addChild { id := st.nextId, stdoutPiped := stdout.isPiped },
          spawns := st.spawns ++
            [{ id := st.nextId, name := name, args := args,
               stdin := stdin, stdout := stdout, stderrPiped := true }],
          nextId := st.nextId + 1 }
  else .error (.spawnFailed, st)

/-- Engine::execute_cmd_std: stdin, stdout and stderr all piped. -/
def executeCmdStd (env : Env) (name : List Char) (args : List (List Char))
    (st : EngineSt) : Except (EngineErr × EngineSt) EngineSt :=
  spawnChild env name args .piped .piped st

/-- Engine::execute_cmd_redir: open the file according to the mode, substitute
it for the directionally appropriate stream, then spawn. -/
def executeCmdRedir (env : Env) (name : List Char) (args : List (List Char))
    (file : List Char) (mode : RedirectMode) (st : EngineSt) :
    Except (EngineErr × EngineSt) EngineSt :=
  match mode with
  | .read =>
    if env.fileExists file then
      spawnChild env name args (.fromFile file) .piped st
    else .error (.openFailed .notFound, st)
  | .write =>
    spawnChild env name args .piped (.toFile file .write) st
  | .append =>
    if env.fileExists file then
      spawnChild env name args .piped (.toFile file .append) st
    else .error (.openFailed .notFound, st)

/-- Engine::execute_cmd_pipe: pop the last child from the context, move its
stdout into the new command's stdin (both unwraps panic when unavailable),
then spawn. -/
def executeCmdPipe (env : Env) (name : List Char) (args : List (List Char))
    (st : EngineSt) : Except (EngineErr × EngineSt) EngineSt :=
  match st.ctx.takeLastChild with
  | (none, _) => .error (.unwrapFailed, st)
  | (some c, ctx') =>
    if c.stdoutPiped then
      spawnChild env name args (.fromChildStdout c.id) .piped { st with ctx := ctx' }
    else .error (.unwrapFailed, { st with ctx := ctx' })

/-- Engine::execute_node.  The match in the source has arms for Command,
Redirect and Pipe only; Background falls into the todo! arm, which panics. -/
def executeNode (env : Env) : RshNode → EngineSt → Except (EngineErr × EngineSt) EngineSt
  | .command name args, st =>
    if st.ctx.shouldPipe then executeCmdPipe env name args st
    else executeCmdStd env name args st
  | .redirect cmd file mode, st =>
    match cmd.getName, cmd.getArgs with
    | some name, some args => executeCmdRedir env name args file mode st
    | _, _ => .error (.unwrapFailed, st)
  | .pipe l r, st =>
    match executeNode env l st with
    | .error e => .error e
    | .ok st1 =>
      match executeNode env r (st1.setPipe true) with
      | .error e => .error e
      | .ok st2 => .ok (st2.setPipe false)
  | .background _, st => .error (.todoUnimplemented, st)

/-- Engine::execute: run the root node on a fresh context. -/
def execute (env : Env) (root : RshNode) : Except (EngineErr × EngineSt) EngineSt :=
  executeNode env root EngineSt.init

/-- The number of Command leaves of an AST. -/
def countCommands : RshNode → Nat
  | .command _ _ => 1
  | .pipe l r => countCommands l + countCommands r
  | .redirect c _ _ => countCommands c
  | .background c => countCommands c

/-- The names of the Command leaves in left-to-right depth-first order. -/
def dfsNames : RshNode → List (List Char)
  | .command n _ => [n]
  | .pipe l r => dfsNames l ++ dfsNames r
  | .redirect c _ _ => dfsNames c
  | .background c => dfsNames c

/-- How many spawns in a log were pipe-connected. -/
def countPiped (l : List SpawnRecord) : Nat :=
  l.countP (fun r => r.pipeConnected)

/-- An environment with no files, in which every spawn succeeds. -/
def trivEnv : Env :=
  { fileExists := fun _ => false, spawnOk := fun _ => true }

/-- An environment in which exactly the one named file exists. -/
def envWithFile (f : List Char) : Env :=
  { fileExists := fun g => decide (g = f), spawnOk := fun _ => true }

/-- A plain word: nonempty, containing no operator characters and no
whitespace, so the tokenizer emits it as one Text token. -/
def IsWord (w : List Char) : Prop :=
  w ≠ [] ∧ ∀ c ∈ w, isSpecialToken c = false ∧ c.isWhitespace = false

instance : DecidablePred IsWord := fun w => by
  unfold IsWord
  infer_instance

/-- Characters on which the argument loop of parse_simple_command stops. -/
def stopChar (c : Char) : Bool :=
  c = '|' || c = '>' || c = '<' || c = '&'

/-- The remainder is empty or starts with an operator ending a simple command. -/
def stopOrNil : List Char → Bool
  | [] => true
  | c :: _ => stopChar c

/-- The input text of a pipe chain of single words, w1|w2|...|wn. -/
def chainStr : List Char → List (List Char) → List Char
  | w, [] => w
  | w, v :: vs => w ++ '|' :: chainStr v vs

/-- The right-leaning pipe tree over single-word commands. -/
def rightChain : List Char → List (List Char) → RshNode
  | w, [] => .command w []
  | w, v :: vs => .pipe (.command w []) (rightChain v vs)

/-- The right-leaning pipe tree whose last stage is wrapped in Background. -/
def rightChainBg : List Char → List (List Char) → RshNode
  | w, [] => .background (.command w [])
  | w, v :: vs => .pipe (.command w []) (rightChainBg v vs)

/-- The engine state after spawning the single standalone command a. -/
def demoSt : EngineSt :=
  { ctx := { commandCount := 1, shouldPipe := false,
             children := [{ id := 0, stdoutPiped := true }] },
    spawns := [{ id := 0, name := ['a'], args := [], stdin := .piped,
                 stdout := .piped, stderrPiped := true }],
    nextId := 1 }

/-! ### Tokenizer lemmas -/

theorem nextToken_eq_none {s : List Char} : nextToken s = none ↔ s = [] := by
  cases s with
  | nil => simp [nextToken]
  | cons c cs =>
    constructor
    · intro h
      by_cases hc : isSpecialToken c <;> simp [nextToken, hc] at h
    · intro h
      exact absurd h (by simp)

theorem Token.new_special_display {c : Char} (h : isSpecialToken c = true) :
    (Token.new [c]).display = [c] := by
  have hc : c = '|' ∨ c = '>' ∨ c = '<' ∨ c = '&' ∨ c = '"' ∨ c = '\'' ∨ c = ' ' := by
    simpa [isSpecialToken, or_assoc] using h
  rcases hc with rfl | rfl | rfl | rfl | rfl | rfl | rfl <;> decide

theorem Token.new_text {s : List Char} (h : ∀ c ∈ s, isSpecialToken c = false) :
    Token.new s = .text s := by
  unfold Token.new
  split_ifs with h1 h2 h3 h4 h5 h6 h7
  · exact absurd (h '|' (by simp [h1])) (by decide)
  · exact absurd (h '>' (by simp [h2])) (by decide)
  · exact absurd (h '<' (by simp [h3])) (by decide)
  · exact absurd (h '&' (by simp [h4])) (by decide)
  · exact absurd (h '\'' (by simp [h5])) (by decide)
  · exact absurd (h '"' (by simp [h6])) (by decide)
  · exact absurd (h ' ' (by simp [h7])) (by decide)
  · rfl

theorem nextToken_display {s : List Char} {t : Token} {r : List Char}
    (h : nextToken s = some (t, r)) : t.display ++ r = s := by
  cases s with
  | nil => simp [nextToken] at h
  | cons c cs =>
    by_cases hc : isSpecialToken c
    · simp only [nextToken, hc, if_pos, List.drop_succ_cons, List.drop_zero,
        Option.some.injEq, Prod.mk.injEq] at h
      obtain ⟨rfl, rfl⟩ := h
      rw [Token.new_special_display hc]
      rfl
    · simp only [nextToken, hc, if_neg, Bool.false_eq_true, not_false_eq_true,
        Option.some.injEq, Prod.mk.injEq] at h
      obtain ⟨rfl, rfl⟩ := h
      rw [Token.new_text, Token.display]
      · exact List.takeWhile_append_dropWhile _ _
      · intro x hx
        have hx' := List.mem_takeWhile_imp hx
        simpa using hx'

theorem nextToken_length {s : List Char} {t : Token} {r : List Char}
    (h : nextToken s = some (t, r)) : r.length < s.length := by
  cases s with
  | nil => simp [nextToken] at h
  | cons c cs =>
    by_cases hc : isSpecialToken c
    · simp only [nextToken, hc, if_pos, List.drop_succ_cons, List.drop_zero,
        Option.some.injEq, Prod.mk.injEq] at h
      obtain ⟨rfl, rfl⟩ := h
      simp
    · simp only [nextToken, hc, if_neg, Bool.false_eq_true, not_false_eq_true,
        Option.some.injEq, Prod.mk.injEq] at h
      obtain ⟨rfl, rfl⟩ := h
      have hdrop : (c :: cs).dropWhile (fun x => !isSpecialToken x) =
          cs.dropWhile (fun x => !isSpecialToken x) := by
        rw [List.dropWhile_cons_of_pos]
        simp [hc]
      rw [hdrop]
      have := (List.dropWhile_suffix (l := cs) (fun x => !isSpecialToken x)).length_le
      simp only [List.length_cons]
      omega

theorem tokenizeFuel_roundtrip :
    ∀ fuel s, s.length < fuel → tokensText (tokenizeFuel fuel s) = s := by
  intro fuel
  induction fuel with
  | zero => intro s h; omega
  | succ f ih =>
    intro s h
    cases hnt : nextToken s with
    | none =>
      have hs : s = [] := nextToken_eq_none.mp hnt
      subst hs
      simp [tokenizeFuel, nextToken, tokensText]
    | some p =>
      obtain ⟨t, r⟩ := p
      have hlen := nextToken_length hnt
      have hdisp := nextToken_display hnt
      simp only [tokenizeFuel, hnt, tokensText, List.foldr_cons]
      have ihr : tokensText (tokenizeFuel f r) = r := ih r (by omega)
      rw [show (List.foldr (fun t acc => t.display ++ acc) [] (tokenizeFuel f r)) =
            tokensText (tokenizeFuel f r) from rfl, ihr, hdisp]

/-- C2: for every input, concatenating the literal text of every token
yielded by repeatedly calling Tokenizer::next_token until it returns None
exactly reconstructs the original input. -/
theorem c2_tokenizer_roundtrip (s : List Char) : tokensText (tokenize s) = s :=
  tokenizeFuel_roundtrip (s.length + 1) s (by omega)

/-! ### Word-level tokenizer facts used by the parser -/

theorem takeWhile_append_all {p : Char → Bool} {w rest : List Char}
    (h : ∀ c ∈ w, p c = true) :
    (w ++ rest).takeWhile p = w ++ rest.takeWhile p := by
  induction w with
  | nil => simp
  | cons c cs ih =>
    rw [List.cons_append, List.takeWhile_cons_of_pos (h c (by simp)),
      ih (fun x hx => h x (by simp [hx])), List.cons_append]

theorem dropWhile_append_all {p : Char → Bool} {w rest : List Char}
    (h : ∀ c ∈ w, p c = true) :
    (w ++ rest).dropWhile p = rest.dropWhile p := by
  induction w with
  | nil => simp
  | cons c cs ih =>
    rw [List.cons_append, List.dropWhile_cons_of_pos (h c (by simp)),
      ih (fun x hx => h x (by simp [hx]))]

/-- The remainder after a word is empty or starts with a special character. -/
def SpecialOrNil (rest : List Char) : Prop :=
  rest = [] ∨ ∃ c t, rest = c :: t ∧ isSpecialToken c = true

theorem nextToken_word {w rest : List Char} (hw : IsWord w)
    (hrest : SpecialOrNil rest) :
    nextToken (w ++ rest) = some (.text w, rest) := by
  obtain ⟨hne, hall⟩ := hw
  have hpall : ∀ c ∈ w, (fun x => !isSpecialToken x) c = true := by
    intro c hc
    simp [(hall c hc).1]
  have htake : (w ++ rest).takeWhile (fun x => !isSpecialToken x) = w := by
    rw [takeWhile_append_all hpall]
    rcases hrest with rfl | ⟨c, t, rfl, hc⟩
    · simp
    · rw [List.takeWhile_cons_of_neg (by simp [hc])]
      simp
  have hdrop : (w ++ rest).dropWhile (fun x => !isSpecialToken x) = rest := by
    rw [dropWhile_append_all hpall]
    rcases hrest with rfl | ⟨c, t, rfl, hc⟩
    · simp
    · rw [List.dropWhile_cons_of_neg (by simp [hc])]
  obtain ⟨c, cs, rfl⟩ := List.exists_cons_of_ne_nil hne
  have hcsp : isSpecialToken c = false := (hall c (by simp)).1
  rw [List.cons_append] at htake hdrop ⊢
  simp only [nextToken, hcsp, Bool.false_eq_true, if_false]
  rw [htake, hdrop, Token.new_text (fun x hx => (hall x hx).1)]

theorem skipWhitespace_word {w : List Char} (rest : List Char) (hw : IsWord w) :
    skipWhitespace (w ++ rest) = w ++ rest := by
  obtain ⟨hne, hall⟩ := hw
  obtain ⟨c, cs, rfl⟩ := List.exists_cons_of_ne_nil hne
  rw [List.cons_append]
  unfold skipWhitespace
  rw [List.dropWhile_cons_of_neg (by simp [(hall c (by simp)).2])]

theorem skipWhitespace_all {t : List Char} (h : ∀ c ∈ t, c.isWhitespace = true) :
    skipWhitespace t = [] := by
  unfold skipWhitespace
  induction t with
  | nil => rfl
  | cons c cs ih =>
    rw [List.dropWhile_cons_of_pos (h c (by simp))]
    exact ih (fun x hx => h x (by simp [hx]))

theorem peekNext_special {c : Char} (t : List Char) (h : isSpecialToken c = true) :
    peekNext (c :: t) = some (Token.new [c]) := by
  simp [peekNext, nextToken, h]

theorem advanceToken_special {c : Char} (t : List Char) (h : isSpecialToken c = true) :
    advanceToken (c :: t) = t := by
  simp [advanceToken, nextToken, h]

theorem stopChar_special {c : Char} (h : stopChar c = true) :
    isSpecialToken c = true := by
  have hc : c = '|' ∨ c = '>' ∨ c = '<' ∨ c = '&' := by
    simpa [stopChar, or_assoc] using h
  rcases hc with rfl | rfl | rfl | rfl <;> decide

/-! ### Parser lemmas -/

theorem nextIs_false_of_ne {tok t : Token} {st : List Char}
    (h : peekNext st = some t) (hne : t ≠ tok) : nextIs tok st = false := by
  simp [nextIs, h, hne]

theorem parseArgument_word {w rest : List Char} (hw : IsWord w)
    (hrest : SpecialOrNil rest) :
    parseArgument (w ++ rest) = .ok (w, rest) := by
  have hskip := skipWhitespace_word rest hw
  have hnt := nextToken_word hw hrest
  have hpeek : peekNext (w ++ rest) = some (.text w) := by
    simp [peekNext, hnt]
  have h1 : nextIs Token.singleQuote (w ++ rest) = false :=
    nextIs_false_of_ne hpeek (by simp)
  have h2 : nextIs Token.doubleQuote (w ++ rest) = false :=
    nextIs_false_of_ne hpeek (by simp)
  simp only [parseArgument, hskip, h1, h2, Bool.false_eq_true, if_false, hnt]

theorem parseArgument_ws {t : List Char} (h : ∀ c ∈ t, c.isWhitespace = true) :
    parseArgument t = .error .unexpectedEOF := by
  have hskip : skipWhitespace t = [] := skipWhitespace_all h
  simp [parseArgument, hskip, nextIs, peekNext, nextToken]

theorem collectUntilFuel_nil (fuel : Nat) (tok : Token) (acc : List Char) :
    collectUntilFuel fuel tok acc [] = (acc, []) := by
  cases fuel with
  | zero => rfl
  | succ f => simp [collectUntilFuel, nextToken]

/-- An unmatched single quote followed by one plain word: the word is consumed
to the end of input and returned as the collected text, with no error. -/
theorem parseArgument_quote_unterminated {w : List Char} (hw : IsWord w) :
    parseArgument ('\'' :: w) = .ok (w, []) := by
  have hskip : skipWhitespace ('\'' :: w) = '\'' :: w := by
    unfold skipWhitespace
    rw [List.dropWhile_cons_of_neg (by decide)]
  have hnt : nextToken ('\'' :: w) = some (Token.singleQuote, w) := by
    simp [nextToken, Token.new, isSpecialToken]
  have h1 : nextIs Token.singleQuote ('\'' :: w) = true := by
    simp [nextIs, peekNext, hnt]
  have hcollect : collectUntilFuel (w.length + 1) Token.singleQuote [] w = (w, []) := by
    have hw0 := nextToken_word hw (Or.inl rfl)
    rw [List.append_nil] at hw0
    simp only [collectUntilFuel, hw0]
    rw [if_neg (by simp)]
    simpa [Token.display] using collectUntilFuel_nil w.length Token.singleQuote w
  have hadv : advanceToken ('\'' :: w) = w := by
    simp [advanceToken, hnt]
  simp only [parseArgument, hskip, h1, if_true, parseUntilNext, hadv]
  rw [if_neg hw.1, hcollect]

theorem parseSimpleCommandLoopF_stop {fuel : Nat} {args : List (List Char)}
    {rest : List Char} (h : stopOrNil rest = true) :
    parseSimpleCommandLoopF (fuel + 1) args rest = .ok (args, rest) := by
  cases rest with
  | nil => simp [parseSimpleCommandLoopF, peekNext, nextToken]
  | cons c t =>
    have hc : stopChar c = true := h
    have hcs : isSpecialToken c = true := stopChar_special hc
    have hpeek : peekNext (c :: t) = some (Token.new [c]) := peekNext_special t hcs
    have hcc : c = '|' ∨ c = '>' ∨ c = '<' ∨ c = '&' := by
      simpa [stopChar, or_assoc] using hc
    rcases hcc with rfl | rfl | rfl | rfl <;>
      simp [parseSimpleCommandLoopF, hpeek, Token.new]

/-- A single plain word followed by an end-of-command remainder parses as a
command with that word as name and no arguments. -/
theorem parseSimpleCommand_word {w : List Char} (rest : List Char) (hw : IsWord w)
    (hrest : stopOrNil rest = true) :
    parseSimpleCommand (w ++ rest) = .ok (.command w [], rest) := by
  have hro : SpecialOrNil rest := by
    cases rest with
    | nil => exact Or.inl rfl
    | cons c t => exact Or.inr ⟨c, t, rfl, stopChar_special hrest⟩
  have harg := parseArgument_word hw hro
  cases hfl : rest.length + 1 with
  | zero => omega
  | succ f =>
    simp only [parseSimpleCommand, harg, hfl, parseSimpleCommandLoopF_stop hrest]

theorem parseCommandLoopF_nil (fuel : Nat) (cmd : RshNode) :
    parseCommandLoopF (fuel + 1) cmd [] = .ok (cmd, []) := by
  simp [parseCommandLoopF, peekNext, nextToken]

theorem chainStr_length_pos {v : List Char} (vs : List (List Char))
    (hv : IsWord v) : 1 ≤ (chainStr v vs).length := by
  have hvp : 1 ≤ v.length := List.length_pos.mpr hv.1
  cases vs with
  | nil => simpa [chainStr] using hvp
  | cons x xs =>
    simp only [chainStr, List.length_append]
    omega

theorem peekNext_pipe (t : List Char) : peekNext ('|' :: t) = some Token.pipe := by
  simp [peekNext, nextToken, isSpecialToken, Token.new]

/-- A chain of single words joined by pipe characters parses to the
right-leaning pipe tree, consuming the whole input. -/
theorem parseCommandF_chain :
    ∀ (ws : List (List Char)) (fuel : Nat) (w : List Char), IsWord w →
      (∀ v ∈ ws, IsWord v) → (chainStr w ws).length < fuel →
      parseCommandF fuel (chainStr w ws) = .ok (rightChain w ws, []) := by
  intro ws
  induction ws with
  | nil =>
    intro fuel w hw _ hlen
    have hwp : 1 ≤ w.length := List.length_pos.mpr hw.1
    simp only [chainStr] at hlen ⊢
    obtain ⟨f, rfl⟩ : ∃ f, fuel = f + 2 := ⟨fuel - 2, by omega⟩
    have hsc := parseSimpleCommand_word [] hw rfl
    rw [List.append_nil] at hsc
    simp only [parseCommandF, hsc, rightChain]
    exact parseCommandLoopF_nil f (.command w [])
  | cons v vs ih =>
    intro fuel w hw hall hlen
    have hv : IsWord v := hall v (by simp)
    have hvs : ∀ x ∈ vs, IsWord x := fun x hx => hall x (by simp [hx])
    have hwp : 1 ≤ w.length := List.length_pos.mpr hw.1
    have hcp : 1 ≤ (chainStr v vs).length := chainStr_length_pos vs hv
    simp only [chainStr, List.length_append, List.length_cons] at hlen
    obtain ⟨f, rfl⟩ : ∃ f, fuel = f + 3 := ⟨fuel - 3, by omega⟩
    show parseCommandF (f + 3) (w ++ '|' :: chainStr v vs) = _
    have hsc := parseSimpleCommand_word ('|' :: chainStr v vs) hw rfl
    simp only [parseCommandF, hsc]
    rw [show f + 2 = (f + 1) + 1 from rfl]
    simp only [parseCommandLoopF, peekNext_pipe,
      advanceToken_special (c := '|') (chainStr v vs) (by decide)]
    rw [ih (f + 1) v hv hvs (by omega)]
    exact parseCommandLoopF_nil f _

/-- C4: a chain of commands joined by pipe tokens parses to a right-leaning
tree in which each Pipe node's right child is the parse of the entire
remainder, and the three-stage example gives Pipe with nested Pipe on the
right. -/
theorem c4_pipe_right_leaning (w : List Char) (ws : List (List Char))
    (hw : IsWord w) (hws : ∀ v ∈ ws, IsWord v) :
    parse (chainStr w ws) = .ok (rightChain w ws) ∧
    parse ("ls -l | grep .rs | wc -l".toList) =
      .ok (.pipe (.command "ls".toList ["-l".toList])
        (.pipe (.command "grep".toList [".rs".toList])
          (.command "wc".toList ["-l".toList]))) := by
  constructor
  · have h := parseCommandF_chain ws ((chainStr w ws).length + 1) w hw hws (by omega)
    simp only [parse, h]
  · rfl

theorem c4_witness :
    IsWord ['a'] ∧ (∀ v ∈ [['b'], ['c']], IsWord v) ∧
    rightChain ['a'] [['b'], ['c']] =
      .pipe (.command ['a'] []) (.pipe (.command ['b'] []) (.command ['c'] [])) ∧
    chainStr ['a'] [['b'], ['c']] = ['a', '|', 'b', '|', 'c'] ∧
    (parse (chainStr ['a'] [['b'], ['c']]) = .ok (rightChain ['a'] [['b'], ['c']]) ∧
      parse ("ls -l | grep .rs | wc -l".toList) =
        .ok (.pipe (.command "ls".toList ["-l".toList])
          (.pipe (.command "grep".toList [".rs".toList])
            (.command "wc".toList ["-l".toList])))) :=
  ⟨by decide, by decide, by decide, by decide,
    c4_pipe_right_leaning ['a'] [['b'], ['c']] (by decide) (by decide)⟩

theorem peekNext_background (t : List Char) :
    peekNext ('&' :: t) = some Token.background := by
  simp [peekNext, nextToken, isSpecialToken, Token.new]

/-- A pipe chain of single words with a trailing background token parses to
the right-leaning tree whose last stage alone is wrapped in Background. -/
theorem parseCommandF_chainBg :
    ∀ (ws : List (List Char)) (fuel : Nat) (w : List Char), IsWord w →
      (∀ v ∈ ws, IsWord v) → (chainStr w ws).length + 1 < fuel →
      parseCommandF fuel (chainStr w ws ++ ['&']) = .ok (rightChainBg w ws, []) := by
  intro ws
  induction ws with
  | nil =>
    intro fuel w hw _ hlen
    have hwp : 1 ≤ w.length := List.length_pos.mpr hw.1
    simp only [chainStr] at hlen ⊢
    obtain ⟨f, rfl⟩ : ∃ f, fuel = f + 3 := ⟨fuel - 3, by omega⟩
    have hsc := parseSimpleCommand_word ['&'] hw rfl
    simp only [parseCommandF, hsc]
    rw [show f + 2 = (f + 1) + 1 from rfl]
    simp only [parseCommandLoopF, peekNext_background,
      advanceToken_special (c := '&') [] (by decide)]
    exact parseCommandLoopF_nil f _
  | cons v vs ih =>
    intro fuel w hw hall hlen
    have hv : IsWord v := hall v (by simp)
    have hvs : ∀ x ∈ vs, IsWord x := fun x hx => hall x (by simp [hx])
    have hwp : 1 ≤ w.length := List.length_pos.mpr hw.1
    have hcp : 1 ≤ (chainStr v vs).length := chainStr_length_pos vs hv
    simp only [chainStr, List.length_append, List.length_cons] at hlen
    obtain ⟨f, rfl⟩ : ∃ f, fuel = f + 3 := ⟨fuel - 3, by omega⟩
    have hshape : chainStr w (v :: vs) ++ ['&'] =
        w ++ '|' :: (chainStr v vs ++ ['&']) := by
      simp [chainStr]
    rw [show chainStr w (v :: vs) = w ++ '|' :: chainStr v vs from rfl,
      List.append_assoc, List.cons_append]
    have hsc := parseSimpleCommand_word ('|' :: (chainStr v vs ++ ['&'])) hw rfl
    simp only [parseCommandF, hsc]
    rw [show f + 2 = (f + 1) + 1 from rfl]
    simp only [parseCommandLoopF, peekNext_pipe,
      advanceToken_special (c := '|') (chainStr v vs ++ ['&']) (by decide)]
    rw [ih (f + 1) v hv hvs (by omega)]
    exact parseCommandLoopF_nil f _

/-- C5: with a background token right after the final stage of a pipe chain,
only the rightmost stage is wrapped in Background; in particular the
three-stage example from the spec parses as Pipe with the Background wrapper
innermost, not around the whole chain. -/
theorem c5_background_last_stage (w : List Char) (ws : List (List Char))
    (hw : IsWord w) (hws : ∀ v ∈ ws, IsWord v) :
    parse (chainStr w ws ++ ['&']) = .ok (rightChainBg w ws) ∧
    parse ("ls -l|grep .rs|wc -l&".toList) =
      .ok (.pipe (.command "ls".toList ["-l".toList])
        (.pipe (.command "grep".toList [".rs".toList])
          (.background (.command "wc".toList ["-l".toList])))) := by
  constructor
  · have h := parseCommandF_chainBg ws ((chainStr w ws ++ ['&']).length + 1) w hw hws
      (by simp [List.length_append])
    simp only [parse, h]
  · rfl

theorem c5_witness :
    IsWord ['a'] ∧ (∀ v ∈ [['b'], ['c']], IsWord v) ∧
    chainStr ['a'] [['b'], ['c']] ++ ['&'] = ['a', '|', 'b', '|', 'c', '&'] ∧
    rightChainBg ['a'] [['b'], ['c']] =
      .pipe (.command ['a'] [])
        (.pipe (.command ['b'] []) (.background (.command ['c'] []))) ∧
    (parse (chainStr ['a'] [['b'], ['c']] ++ ['&']) =
        .ok (rightChainBg ['a'] [['b'], ['c']]) ∧
      parse ("ls -l|grep .rs|wc -l&".toList) =
        .ok (.pipe (.command "ls".toList ["-l".toList])
          (.pipe (.command "grep".toList [".rs".toList])
            (.background (.command "wc".toList ["-l".toList]))))) :=
  ⟨by decide, by decide, by decide, by decide,
    c5_background_last_stage ['a'] [['b'], ['c']] (by decide) (by decide)⟩

theorem parseSimpleCommand_echo_quote {w : List Char} (hw : IsWord w) :
    parseSimpleCommand (['e', 'c', 'h', 'o'] ++ (' ' :: '\'' :: w)) =
      .ok (.command ['e', 'c', 'h', 'o'] [w], []) := by
  have harg : parseArgument (['e', 'c', 'h', 'o'] ++ (' ' :: '\'' :: w)) =
      .ok (['e', 'c', 'h', 'o'], ' ' :: '\'' :: w) :=
    parseArgument_word (by decide) (Or.inr ⟨' ', '\'' :: w, rfl, by decide⟩)
  have hp1 : peekNext (' ' :: '\'' :: w) = some Token.space := by
    simp [peekNext, nextToken, isSpecialToken, Token.new]
  have hskip : skipWhitespace (' ' :: '\'' :: w) = '\'' :: w := by
    unfold skipWhitespace
    rw [List.dropWhile_cons_of_pos (by decide), List.dropWhile_cons_of_neg (by decide)]
  have hp2 : peekNext ('\'' :: w) = some Token.singleQuote := by
    simp [peekNext, nextToken, isSpecialToken, Token.new]
  have hq := parseArgument_quote_unterminated hw
  simp only [parseSimpleCommand, harg]
  rw [show (' ' :: '\'' :: w).length + 1 = ((w.length + 1) + 1) + 1 from by simp]
  simp only [parseSimpleCommandLoopF, hp1, hskip, hp2, hq]
  simp [peekNext, nextToken]

/-- C3 amended: an opening single quote with no matching close fails with
UnexpectedEOF only when the quote is the last character of the input; when
text follows the unmatched quote, parsing succeeds and the text up to the end
of input becomes the argument. -/
theorem c3_amended (w : List Char) (hw : IsWord w) :
    parse ("echo '".toList ++ w) = .ok (.command "echo".toList [w]) ∧
    parse ("echo '".toList) = .error .unexpectedEOF := by
  constructor
  · show parse (['e', 'c', 'h', 'o'] ++ (' ' :: '\'' :: w)) = _
    have hsc := parseSimpleCommand_echo_quote hw
    simp only [parse, parseCommandF, hsc]
    rw [show (['e', 'c', 'h', 'o'] ++ (' ' :: '\'' :: w)).length = (w.length + 5) + 1
      from by simp]
    rw [parseCommandLoopF_nil]
    rfl
  · rfl

theorem c3_witness :
    IsWord ("unterminated".toList) ∧
    (parse ("echo '".toList ++ "unterminated".toList) =
        .ok (.command "echo".toList ["unterminated".toList]) ∧
      parse ("echo '".toList) = .error .unexpectedEOF) :=
  ⟨by decide, c3_amended ("unterminated".toList) (by decide)⟩

/-- C3 counterexample: the spec's own example input, an open single quote
with no matching close and further text, parses successfully instead of
failing with UnexpectedEOF. -/
theorem c3_counterexample :
    parse ("echo 'unterminated".toList) =
      .ok (.command "echo".toList ["unterminated".toList]) := by
  rfl

theorem parseSimpleCommand_err {st : List Char} {e : ParseError}
    (h : parseArgument st = .error e) : parseSimpleCommand st = .error e := by
  simp [parseSimpleCommand, h]

theorem parseCommandLoopF_trailing (fuel : Nat) (cmd : RshNode) {t : List Char}
    (ht : ∀ c ∈ t, c.isWhitespace = true) :
    parseCommandLoopF (fuel + 2) cmd ('|' :: t) = .error .unexpectedEOF ∧
    parseCommandLoopF (fuel + 1) cmd ('>' :: t) = .error .unexpectedEOF ∧
    parseCommandLoopF (fuel + 1) cmd ('<' :: t) = .error .unexpectedEOF := by
  have harg : parseArgument t = .error .unexpectedEOF := parseArgument_ws ht
  refine ⟨?_, ?_, ?_⟩
  · have hpeek := peekNext_pipe t
    have hadv := advanceToken_special (c := '|') t (by decide)
    rw [show fuel + 2 = (fuel + 1) + 1 from rfl]
    simp only [parseCommandLoopF, hpeek, hadv, parseCommandF,
      parseSimpleCommand_err harg]
  · have hpeek : peekNext ('>' :: t) = some Token.redirectOutput := by
      simp [peekNext, nextToken, isSpecialToken, Token.new]
    have hadv := advanceToken_special (c := '>') t (by decide)
    simp only [parseCommandLoopF, hpeek, hadv, harg]
  · have hpeek : peekNext ('<' :: t) = some Token.redirectInput := by
      simp [peekNext, nextToken, isSpecialToken, Token.new]
    have hadv := advanceToken_special (c := '<') t (by decide)
    simp only [parseCommandLoopF, hpeek, hadv, harg]

/-- C9 amended: an input ending in a trailing pipe or trailing redirect
operator followed only by whitespace fails with UnexpectedEOF, provided the
parser actually reaches the operator (a completed redirect or background
construct followed by whitespace earlier in the line would instead end
parsing early with Ok, discarding the tail). -/
theorem c9_amended (w t : List Char) (hw : IsWord w)
    (ht : ∀ c ∈ t, c.isWhitespace = true) :
    parse (w ++ '|' :: t) = .error .unexpectedEOF ∧
    parse (w ++ '>' :: t) = .error .unexpectedEOF ∧
    parse (w ++ '<' :: t) = .error .unexpectedEOF := by
  have hwp : 1 ≤ w.length := List.length_pos.mpr hw.1
  obtain ⟨htr1, _, _⟩ :=
    parseCommandLoopF_trailing (w.length - 1 + t.length) (.command w []) ht
  obtain ⟨_, htr2, htr3⟩ :=
    parseCommandLoopF_trailing (w.length - 1 + t.length + 1) (.command w []) ht
  refine ⟨?_, ?_, ?_⟩
  · have hsc := parseSimpleCommand_word ('|' :: t) hw rfl
    simp only [parse, parseCommandF, hsc]
    rw [show (w ++ '|' :: t).length = (w.length - 1 + t.length) + 2 from by
      rw [List.length_append, List.length_cons]; omega]
    rw [htr1]
  · have hsc := parseSimpleCommand_word ('>' :: t) hw rfl
    simp only [parse, parseCommandF, hsc]
    rw [show (w ++ '>' :: t).length = (w.length - 1 + t.length) + 1 + 1 from by
      rw [List.length_append, List.length_cons]; omega]
    rw [show (w.length - 1 + t.length) + 1 + 1 = (w.length - 1 + t.length + 1) + 1 from rfl]
    rw [htr2]
  · have hsc := parseSimpleCommand_word ('<' :: t) hw rfl
    simp only [parse, parseCommandF, hsc]
    rw [show (w ++ '<' :: t).length = (w.length - 1 + t.length) + 1 + 1 from by
      rw [List.length_append, List.length_cons]; omega]
    rw [show (w.length - 1 + t.length) + 1 + 1 = (w.length - 1 + t.length + 1) + 1 from rfl]
    rw [htr3]

theorem c9_witness :
    IsWord ['a'] ∧ (∀ c ∈ [' '], Char.isWhitespace c = true) ∧
    (parse (['a'] ++ '|' :: [' ']) = .error .unexpectedEOF ∧
      parse (['a'] ++ '>' :: [' ']) = .error .unexpectedEOF ∧
      parse (['a'] ++ '<' :: [' ']) = .error .unexpectedEOF) :=
  ⟨by decide, by decide, c9_amended ['a'] [' '] (by decide) (by decide)⟩

/-- C9 counterexample: this input ends with a trailing pipe token and no
right-hand command, yet parse returns Ok (the completed redirect followed by
a space ends the parse early, discarding the pipe), not UnexpectedEOF. -/
theorem c9_counterexample :
    parse ("ls > out.txt |".toList) =
      .ok (.redirect (.command "ls".toList []) "out.txt".toList .write) := by
  rfl

/-- C10: once a redirect (or background) construct is complete, a whitespace
token stops the parse_command loop and everything after it is silently
discarded: the loop returns the accumulated node unchanged whenever the next
token is whitespace, and the example line parses to just the redirect, the
trailing pipe and command never appearing in the AST. -/
theorem c10_whitespace_discard (fuel : Nat) (cmd : RshNode) (st : List Char)
    (h : peekNext st = some Token.space) :
    parseCommandLoopF (fuel + 1) cmd st = .ok (cmd, st) ∧
    parse ("ls > out.txt | grep foo".toList) =
      .ok (.redirect (.command "ls".toList []) "out.txt".toList .write) := by
  refine ⟨?_, by rfl⟩
  simp [parseCommandLoopF, h]

theorem c10_witness :
    peekNext [' '] = some Token.space ∧
    (parseCommandLoopF (0 + 1) (.command ['a'] []) [' '] =
        .ok (.command ['a'] [], [' ']) ∧
      parse ("ls > out.txt | grep foo".toList) =
        .ok (.redirect (.command "ls".toList []) "out.txt".toList .write)) :=
  ⟨by rfl, c10_whitespace_discard 0 (.command ['a'] []) [' '] (by rfl)⟩

/-! ### Engine lemmas -/

theorem getName_count {cmd : RshNode} {n : List Char} (h : cmd.getName = some n) :
    countCommands cmd = 1 ∧ dfsNames cmd = [n] := by
  induction cmd with
  | command name args =>
    simp only [RshNode.getName, Option.some.injEq] at h
    subst h
    exact ⟨rfl, rfl⟩
  | pipe l r ihl ihr => simp [RshNode.getName] at h
  | redirect c f m ih =>
    simp only [RshNode.getName] at h
    obtain ⟨h1, h2⟩ := ih h
    simp [countCommands, dfsNames, h1, h2]
  | background c ih =>
    simp only [RshNode.getName] at h
    obtain ⟨h1, h2⟩ := ih h
    simp [countCommands, dfsNames, h1, h2]

theorem spawnChild_accounting {env : Env} {name : List Char}
    {args : List (List Char)} {stdin : StdinCfg} {stdout : StdoutCfg}
    {st st' : EngineSt} (h : spawnChild env name args stdin stdout st = .ok st') :
    st'.ctx.commandCount = st.ctx.commandCount + 1 ∧
    st'.spawns.map SpawnRecord.name = st.spawns.map SpawnRecord.name ++ [name] ∧
    st'.ctx.children.length = st.ctx.children.length + 1 ∧
    countPiped st'.spawns =
      countPiped st.spawns +
        (if (SpawnRecord.pipeConnected
            { id := st.nextId, name := name, args := args, stdin := stdin,
              stdout := stdout, stderrPiped := true }) then 1 else 0) := by
  unfold spawnChild at h
  by_cases hok : env.spawnOk name
  · rw [if_pos hok] at h
    obtain rfl : _ = st' := by injection h
    refine ⟨rfl, by simp, by simp [EngineCtx.addChild], ?_⟩
    simp [countPiped, List.countP_append, List.countP_cons]
  · rw [if_neg hok] at h
    exact absurd h (by simp)

theorem executeNode_accounting :
    ∀ (node : RshNode) (env : Env) (st st' : EngineSt),
      executeNode env node st = .ok st' →
      st'.ctx.commandCount = st.ctx.commandCount + countCommands node ∧
      st'.spawns.map SpawnRecord.name = st.spawns.map SpawnRecord.name ++ dfsNames node ∧
      st'.ctx.children.length + countPiped st'.spawns =
        st.ctx.children.length + countPiped st.spawns + countCommands node := by
  intro node
  induction node with
  | command name args =>
    intro env st st' h
    simp only [executeNode] at h
    by_cases hp : st.ctx.shouldPipe = true
    · rw [if_pos hp] at h
      cases hlast : st.ctx.children.getLast? with
      | none =>
        simp only [executeCmdPipe, EngineCtx.takeLastChild, hlast] at h
        exact absurd h (by simp)
      | some c =>
        simp only [executeCmdPipe, EngineCtx.takeLastChild, hlast] at h
        by_cases hcp : c.stdoutPiped = true
        · rw [if_pos hcp] at h
          have hne : st.ctx.children ≠ [] := by
            intro he
            rw [he] at hlast
            simp at hlast
          have hpos : 1 ≤ st.ctx.children.length := List.length_pos.mpr hne
          obtain ⟨h1, h2, h3, h4⟩ := spawnChild_accounting h
          simp only at h1 h2 h3 h4
          simp [SpawnRecord.pipeConnected] at h4
          simp only [List.length_dropLast] at h3
          refine ⟨by simpa [countCommands] using h1,
            by simpa [dfsNames] using h2, ?_⟩
          simp only [countCommands]
          omega
        · rw [if_neg hcp] at h
          exact absurd h (by simp)
    · rw [if_neg hp] at h
      unfold executeCmdStd at h
      obtain ⟨h1, h2, h3, h4⟩ := spawnChild_accounting h
      simp [SpawnRecord.pipeConnected] at h4
      refine ⟨by simpa [countCommands] using h1, by simpa [dfsNames] using h2, ?_⟩
      simp only [countCommands]
      omega
  | pipe l r ihl ihr =>
    intro env st st' h
    simp only [executeNode] at h
    cases h1 : executeNode env l st with
    | error e => simp [h1] at h
    | ok st1 =>
      simp only [h1] at h
      cases h2 : executeNode env r (st1.setPipe true) with
      | error e => simp [h2] at h
      | ok st2 =>
        simp only [h2, Except.ok.injEq] at h
        subst h
        obtain ⟨a1, a2, a3⟩ := ihl env st st1 h1
        obtain ⟨b1, b2, b3⟩ := ihr env (st1.setPipe true) st2 h2
        simp only [EngineSt.setPipe, EngineCtx.setPipe] at b1 b2 b3 ⊢
        refine ⟨by simp only [countCommands]; omega,
          by simp only [dfsNames]; rw [b2, a2, List.append_assoc], ?_⟩
        simp only [countCommands]
        omega
  | redirect c file mode ih =>
    intro env st st' h
    simp only [executeNode] at h
    cases hn : c.getName with
    | none => simp [hn] at h
    | some n =>
      cases ha : c.getArgs with
      | none => simp [hn, ha] at h
      | some as =>
        simp only [hn, ha] at h
        obtain ⟨hcnt, hdfs⟩ := getName_count hn
        have hspawn :
            st'.ctx.commandCount = st.ctx.commandCount + 1 ∧
            st'.spawns.map SpawnRecord.name = st.spawns.map SpawnRecord.name ++ [n] ∧
            st'.ctx.children.length = st.ctx.children.length + 1 ∧
            countPiped st'.spawns = countPiped st.spawns := by
          cases mode with
          | read =>
            simp only [executeCmdRedir] at h
            by_cases hf : env.fileExists file = true
            · rw [if_pos hf] at h
              obtain ⟨h1, h2, h3, h4⟩ := spawnChild_accounting h
              simp [SpawnRecord.pipeConnected] at h4
              exact ⟨h1, h2, h3, h4⟩
            · rw [if_neg hf] at h
              exact absurd h (by simp)
          | write =>
            simp only [executeCmdRedir] at h
            obtain ⟨h1, h2, h3, h4⟩ := spawnChild_accounting h
            simp [SpawnRecord.pipeConnected] at h4
            exact ⟨h1, h2, h3, h4⟩
          | append =>
            simp only [executeCmdRedir] at h
            by_cases hf : env.fileExists file = true
            · rw [if_pos hf] at h
              obtain ⟨h1, h2, h3, h4⟩ := spawnChild_accounting h
              simp [SpawnRecord.pipeConnected] at h4
              exact ⟨h1, h2, h3, h4⟩
            · rw [if_neg hf] at h
              exact absurd h (by simp)
        obtain ⟨h1, h2, h3, h4⟩ := hspawn
        refine ⟨?_, ?_, ?_⟩
        · simp only [countCommands, hcnt]
          omega
        · simp only [dfsNames, hdfs, h2]
        · simp only [countCommands, hcnt]
          omega
  | background c ih =>
    intro env st st' h
    simp only [executeNode] at h
    exact absurd h (by simp)

/-- C1 amended: when execution succeeds, exactly one process is spawned and
recorded (add_child) per Command leaf, in left-to-right depth-first order, so
commandCount equals the number of Command nodes; but each pipe-connected
stage first pops the previous handle out of the context (take_last_child in
execute_cmd_pipe), so at the end the context owns only the handles never
consumed as pipe inputs: children.length plus the number of pipe-connected
spawns equals the number of Command nodes, rather than children.length alone. -/
theorem c1_amended (env : Env) (node : RshNode) (st' : EngineSt)
    (h : execute env node = .ok st') :
    st'.ctx.commandCount = countCommands node ∧
    st'.spawns.map SpawnRecord.name = dfsNames node ∧
    st'.ctx.children.length + countPiped st'.spawns = countCommands node := by
  have hacc := executeNode_accounting node env EngineSt.init st' h
  simpa [EngineSt.init, EngineCtx.new, countPiped] using hacc

theorem c1_witness :
    execute trivEnv (.command ['a'] []) = .ok demoSt ∧
    (demoSt.ctx.commandCount = countCommands (.command ['a'] []) ∧
      demoSt.spawns.map SpawnRecord.name = dfsNames (.command ['a'] []) ∧
      demoSt.ctx.children.length + countPiped demoSt.spawns =
        countCommands (.command ['a'] [])) :=
  ⟨by rfl, c1_amended trivEnv (.command ['a'] []) demoSt (by rfl)⟩

/-- C1 counterexample: executing the two-command pipeline a|b leaves a
context holding one child handle, not two, and that handle is the second
process (id 1); the first process's handle was popped from the context when
stage two connected to it, so it is not owned by the context at the end. -/
theorem c1_counterexample :
    (execute trivEnv (.pipe (.command ['a'] []) (.command ['b'] []))).map
        (fun st => st.ctx.children.map Child.id) = .ok [1] ∧
    (execute trivEnv (.pipe (.command ['a'] []) (.command ['b'] []))).map
        (fun st => st.ctx.children.length) = .ok 1 ∧
    countCommands (.pipe (.command ['a'] []) (.command ['b'] [])) = 2 := by
  refine ⟨by rfl, by rfl, by rfl⟩

/-- C6: a Redirect node with mode Read naming a file that does not exist
fails with a not-found error before any process is spawned: the engine's
panic (modelled as the propagated error) carries NotFound and the state it
aborts in is the initial one, whose spawn log is empty. -/
theorem c6_read_missing_file (env : Env) (name : List Char)
    (args : List (List Char)) (file : List Char)
    (h : env.fileExists file = false) :
    execute env (.redirect (.command name args) file .read) =
      .error (.openFailed .notFound, EngineSt.init) ∧
    EngineSt.init.spawns = [] := by
  constructor
  · simp [execute, executeNode, RshNode.getName, RshNode.getArgs,
      executeCmdRedir, h]
  · rfl

theorem c6_witness :
    trivEnv.fileExists ("missing.txt".toList) = false ∧
    (execute trivEnv (.redirect (.command "cat".toList []) ("missing.txt".toList) .read) =
        .error (.openFailed .notFound, EngineSt.init) ∧
      EngineSt.init.spawns = []) :=
  ⟨by rfl, c6_read_missing_file trivEnv ("cat".toList) [] ("missing.txt".toList) (by rfl)⟩

/-- C7 amended: Append mode opens the named file for appending only when it
already exists (the OpenOptions builder sets append but not create), and then
substitutes it for the command's standard output; when the file does not
exist the open fails with NotFound and no process is spawned — the file is
not created. -/
theorem c7_amended (env : Env) (name : List Char) (args : List (List Char))
    (file : List Char) :
    (env.fileExists file = true → env.spawnOk name = true →
      execute env (.redirect (.command name args) file .append) =
        .ok { ctx := { commandCount := 1, shouldPipe := false,
                       children := [{ id := 0, stdoutPiped := false }] },
              spawns := [{ id := 0, name := name, args := args, stdin := .piped,
                           stdout := .toFile file .append, stderrPiped := true }],
              nextId := 1 }) ∧
    (env.fileExists file = false →
      execute env (.redirect (.command name args) file .append) =
        .error (.openFailed .notFound, EngineSt.init)) := by
  constructor
  · intro h1 h2
    simp [execute, executeNode, RshNode.getName, RshNode.getArgs,
      executeCmdRedir, spawnChild, h1, h2, EngineSt.init, EngineCtx.new,
      EngineCtx.addChild, StdoutCfg.isPiped]
  · intro h1
    simp [execute, executeNode, RshNode.getName, RshNode.getArgs,
      executeCmdRedir, h1]

theorem c7_witness :
    (envWithFile ("log.txt".toList)).fileExists ("log.txt".toList) = true ∧
    (envWithFile ("log.txt".toList)).spawnOk ("cat".toList) = true ∧
    trivEnv.fileExists ("log.txt".toList) = false ∧
    execute (envWithFile ("log.txt".toList))
        (.redirect (.command "cat".toList []) ("log.txt".toList) .append) =
      .ok { ctx := { commandCount := 1, shouldPipe := false,
                     children := [{ id := 0, stdoutPiped := false }] },
            spawns := [{ id := 0, name := "cat".toList, args := [], stdin := .piped,
                         stdout := .toFile ("log.txt".toList) .append,
                         stderrPiped := true }],
            nextId := 1 } ∧
    execute trivEnv (.redirect (.command "cat".toList []) ("log.txt".toList) .append) =
      .error (.openFailed .notFound, EngineSt.init) :=
  ⟨by rfl, by rfl, by rfl,
    (c7_amended (envWithFile ("log.txt".toList)) ("cat".toList) [] ("log.txt".toList)).1
      (by rfl) (by rfl),
    (c7_amended trivEnv ("cat".toList) [] ("log.txt".toList)).2 (by rfl)⟩

/-- C7 counterexample: executing an Append redirect whose file is absent does
not create the file and substitute it for stdout; it fails with NotFound
before spawning anything. -/
theorem c7_counterexample :
    execute trivEnv (.redirect (.command "cat".toList []) ("missing.txt".toList) .append) =
      .error (.openFailed .notFound, EngineSt.init) := by
  rfl

/-- C8 amended: executing Background never executes the wrapped command at
all: the todo! arm of execute_node panics immediately, leaving the state
untouched, so nothing is spawned. -/
theorem c8_amended (env : Env) (cmd : RshNode) (st : EngineSt) :
    executeNode env (.background cmd) st = .error (.todoUnimplemented, st) :=
  rfl

/-- C8 counterexample: Background{a} and the foreground a behave differently:
the former panics in the todo! arm without spawning, while the latter spawns
the process and records it in the context. -/
theorem c8_counterexample :
    execute trivEnv (.background (.command ['a'] [])) =
      .error (.todoUnimplemented, EngineSt.init) ∧
    execute trivEnv (.command ['a'] []) =
      .ok { ctx := { commandCount := 1, shouldPipe := false,
                     children := [{ id := 0, stdoutPiped := true }] },
            spawns := [{ id := 0, name := ['a'], args := [], stdin := .piped,
                         stdout := .piped, stderrPiped := true }],
            nextId := 1 } := by
  refine ⟨by rfl, by rfl⟩

end Rsh
